import Mathlib

/-!
Verification development for the rCore kernel memory manager
(`kernel/src/memory.rs`): the global frame allocator built on a bitmap
allocator, the kernel stack, and the page-fault entry points.

The bitmap allocator (`bit_allocator` crate) and the address-space
fault search (`rcore_memory` crate) are external to the file under
study; they are modelled from the specification, as noted on each
definition. Everything else is translated directly from
`kernel/src/memory.rs`.
-/

set_option maxHeartbeats 1000000

namespace RCoreMemory

/-- Modelled from the spec: the `bit_allocator` crate's bitmap state,
"a bitmap of capacity N; each bit = free/used".  `true` means used.
The capacity is the length of the list. -/
structure FrameAlloc where
  bits : List Bool
deriving Repr, DecidableEq

/-- Modelled from the spec: the bitmap allocator "finds and marks used
one free bit"; we model the search as returning the index of the first
free (`false`) bit, or `none` when every bit is used. -/
def firstFree : List Bool → Option Nat
  | [] => none
  | b :: bs => if b then (firstFree bs).map (· + 1) else some 0

/-- Modelled from the spec: `BitAlloc::alloc` marks the found free bit
used and returns its index, or returns `none` leaving the bitmap
unchanged when exhausted. -/
def FrameAlloc.alloc (st : FrameAlloc) : Option Nat × FrameAlloc :=
  match firstFree st.bits with
  | some i => (some i, ⟨st.bits.set i true⟩)
  | none => (none, st)

/-- Modelled from the spec: `BitAlloc::dealloc` clears the bit at the
given index. -/
def FrameAlloc.dealloc (st : FrameAlloc) (i : Nat) : FrameAlloc :=
  ⟨st.bits.set i false⟩

/-- The architecture constants `PAGE_SIZE` (from `arch::paging`) and
`MEMORY_OFFSET` (from `consts`) that `memory.rs` imports; they vary by
build target, so they are carried as parameters. -/
structure Config where
  memOffset : Nat
  pageSize : Nat
deriving Repr, DecidableEq

/-- From `memory.rs`, `GlobalFrameAlloc::alloc`:
`FRAME_ALLOCATOR.lock().alloc().map(|id| id * PAGE_SIZE + MEMORY_OFFSET)`. -/
def GlobalFrameAlloc.alloc (c : Config) (st : FrameAlloc) : Option Nat × FrameAlloc :=
  let r := FrameAlloc.alloc st
  (r.1.map (fun id => id * c.pageSize + c.memOffset), r.2)

/-- From `memory.rs`, `GlobalFrameAlloc::dealloc`:
`FRAME_ALLOCATOR.lock().dealloc((target - MEMORY_OFFSET) / PAGE_SIZE)`. -/
def GlobalFrameAlloc.dealloc (c : Config) (st : FrameAlloc) (target : Nat) : FrameAlloc :=
  FrameAlloc.dealloc st ((target - c.memOffset) / c.pageSize)

/-- From `memory.rs`: `pub fn alloc_frame() -> Option<usize> { GlobalFrameAlloc.alloc() }`. -/
def alloc_frame (c : Config) (st : FrameAlloc) : Option Nat × FrameAlloc :=
  GlobalFrameAlloc.alloc c st

/-- From `memory.rs`: `pub fn dealloc_frame(target: usize) { GlobalFrameAlloc.dealloc(target) }`. -/
def dealloc_frame (c : Config) (st : FrameAlloc) (target : Nat) : FrameAlloc :=
  GlobalFrameAlloc.dealloc c st target

-- Basic lemmas about the bitmap search.

theorem firstFree_some {l : List Bool} {i : Nat} (h : firstFree l = some i) :
    l.get? i = some false := by
  induction l generalizing i with
  | nil => simp [firstFree] at h
  | cons b bs ih =>
    cases b with
    | true =>
      simp only [firstFree, if_true, Option.map_eq_some'] at h
      obtain ⟨j, hj, rfl⟩ := h
      simpa [List.get?] using ih hj
    | false =>
      simp only [firstFree, Bool.false_eq_true, if_false, Option.some.injEq] at h
      subst h
      simp [List.get?]

theorem firstFree_none {l : List Bool} (h : firstFree l = none) :
    ∀ b ∈ l, b = true := by
  induction l with
  | nil => simp
  | cons b bs ih =>
    cases b with
    | true =>
      simp only [firstFree, if_true, Option.map_eq_none'] at h
      intro x hx
      rcases List.mem_cons.mp hx with hx | hx
      · simp [hx]
      · exact ih h x hx
    | false => simp [firstFree] at h

theorem firstFree_isSome {l : List Bool} {i : Nat} (h : l.get? i = some false) :
    ∃ j, firstFree l = some j := by
  cases hf : firstFree l with
  | some j => exact ⟨j, rfl⟩
  | none =>
    have hmem : (false : Bool) ∈ l := List.get?_mem h
    have := firstFree_none hf false hmem
    simp at this

theorem set_get_self {l : List Bool} {i : Nat} {b : Bool}
    (h : l.get? i = some b) : l.set i b = l := by
  induction l generalizing i with
  | nil => simp at h
  | cons x xs ih =>
    cases i with
    | zero =>
      simp only [List.get?] at h
      cases h
      simp [List.set]
    | succ n =>
      simp only [List.get?] at h
      simp [List.set, ih h]

/-- A client operation sequence against the global frame allocator:
`alloc` is a call to `alloc_frame()`, `dealloc a` a call to
`dealloc_frame(a)`. -/
inductive FrameOp where
  | alloc : FrameOp
  | dealloc : Nat → FrameOp
deriving Repr, DecidableEq

/-- The allocator state paired with the multiset of bitmap indices the
clients currently hold (the ghost state of the invariant claim). -/
structure AllocState where
  fa : FrameAlloc
  held : List Nat
deriving Repr, DecidableEq

/-- One client operation: an `alloc_frame()` call records the index of a
returned address as held; a `dealloc_frame(a)` call releases the index of
`a`. -/
def stepOp (c : Config) (s : AllocState) : FrameOp → AllocState
  | FrameOp.alloc =>
    match GlobalFrameAlloc.alloc c s.fa with
    | (some a, fa') => ⟨fa', (a - c.memOffset) / c.pageSize :: s.held⟩
    | (none, fa') => ⟨fa', s.held⟩
  | FrameOp.dealloc a =>
    ⟨GlobalFrameAlloc.dealloc c s.fa a, s.held.erase ((a - c.memOffset) / c.pageSize)⟩

def runOps (c : Config) (s : AllocState) (ops : List FrameOp) : AllocState :=
  ops.foldl (stepOp c) s

/-- The no-double-free discipline: every `dealloc_frame(a)` call targets
an address currently held (previously returned by `alloc_frame` and not
yet freed). -/
def ValidOps (c : Config) : AllocState → List FrameOp → Prop
  | _, [] => True
  | s, op :: ops =>
    (match op with
     | FrameOp.alloc => True
     | FrameOp.dealloc a => ∃ i ∈ s.held, a = i * c.pageSize + c.memOffset) ∧
    ValidOps c (stepOp c s op) ops

/-- The boot state: a bitmap of `cap` free bits and nothing held. -/
def initState (cap : Nat) : AllocState :=
  ⟨⟨List.replicate cap false⟩, []⟩

/-- The sequence invariant: the bitmap capacity is fixed, held indices are
pairwise distinct, and every held index has its bit marked used. -/
def Inv (cap : Nat) (s : AllocState) : Prop :=
  s.fa.bits.length = cap ∧ s.held.Nodup ∧
  ∀ i ∈ s.held, s.fa.bits.get? i = some true

theorem firstFree_of_all_used {l : List Bool} (h : ∀ b ∈ l, b = true) :
    firstFree l = none := by
  cases hf : firstFree l with
  | none => rfl
  | some j =>
    have hj := firstFree_some hf
    have := h false (List.get?_mem hj)
    simp at this

/-- C1: if some bitmap bit is free, `GlobalFrameAlloc::alloc` marks one
free bit as used and returns `Some` of its physical address, computed as
bitmap index times `PAGE_SIZE` plus `MEMORY_OFFSET`; if no bit is free it
returns `None` and leaves the bitmap unchanged. -/
theorem alloc_marks_free_bit (c : Config) (st : FrameAlloc) :
    ((∃ i, st.bits.get? i = some false) →
      ∃ i, st.bits.get? i = some false ∧
        GlobalFrameAlloc.alloc c st =
          (some (i * c.pageSize + c.memOffset), ⟨st.bits.set i true⟩)) ∧
    ((∀ b ∈ st.bits, b = true) → GlobalFrameAlloc.alloc c st = (none, st)) := by
  constructor
  · rintro ⟨i, hi⟩
    obtain ⟨j, hj⟩ := firstFree_isSome hi
    refine ⟨j, firstFree_some hj, ?_⟩
    simp [GlobalFrameAlloc.alloc, FrameAlloc.alloc, hj]
  · intro h
    simp [GlobalFrameAlloc.alloc, FrameAlloc.alloc, firstFree_of_all_used h]

theorem alloc_marks_free_bit_witness :
    ∃ i, (FrameAlloc.mk [false]).bits.get? i = some false ∧
      GlobalFrameAlloc.alloc ⟨0, 4096⟩ ⟨[false]⟩ =
        (some (i * 4096 + 0), ⟨[false].set i true⟩) :=
  (alloc_marks_free_bit ⟨0, 4096⟩ ⟨[false]⟩).1 ⟨0, rfl⟩

/-- C2: for a physical address of the form `i * PAGE_SIZE + MEMORY_OFFSET`
(the form of every address returned by `alloc`), `GlobalFrameAlloc::dealloc`
converts it back to the bitmap index `i` and clears exactly that bit,
leaving every other bit of the bitmap unchanged. -/
theorem dealloc_clears_bit (c : Config) (st : FrameAlloc) (i : Nat)
    (hps : 0 < c.pageSize) (hlen : i < st.bits.length) :
    (GlobalFrameAlloc.dealloc c st (i * c.pageSize + c.memOffset)).bits.get? i
        = some false ∧
    ∀ j, j ≠ i →
      (GlobalFrameAlloc.dealloc c st (i * c.pageSize + c.memOffset)).bits.get? j
        = st.bits.get? j := by
  have hidx : (i * c.pageSize + c.memOffset - c.memOffset) / c.pageSize = i := by
    rw [Nat.add_sub_cancel, Nat.mul_div_cancel _ hps]
  constructor
  · simp only [GlobalFrameAlloc.dealloc, FrameAlloc.dealloc, hidx]
    exact List.get?_set_eq_of_lt _ hlen
  · intro j hj
    simp only [GlobalFrameAlloc.dealloc, FrameAlloc.dealloc, hidx]
    exact List.get?_set_ne _ _ (fun hij => hj hij.symm)

theorem dealloc_clears_bit_witness :
    0 < (4096 : Nat) ∧ 0 < (FrameAlloc.mk [true]).bits.length ∧
    (GlobalFrameAlloc.dealloc ⟨0, 4096⟩ ⟨[true]⟩ (0 * 4096 + 0)).bits.get? 0
      = some false :=
  ⟨by decide, by decide,
    (dealloc_clears_bit ⟨0, 4096⟩ ⟨[true]⟩ 0 (by decide) (by decide)).1⟩

/-- C5: whenever `alloc_frame()` succeeds returning address `a`,
performing `dealloc_frame(a)` and then immediately `alloc_frame()` again
returns `Some a`: freed frames are immediately reusable. -/
theorem alloc_dealloc_alloc_round_trip (c : Config) (st : FrameAlloc) (a : Nat)
    (hps : 0 < c.pageSize)
    (h : (alloc_frame c st).1 = some a) :
    (alloc_frame c (dealloc_frame c (alloc_frame c st).2 a)).1 = some a := by
  cases hf : firstFree st.bits with
  | none =>
    simp [alloc_frame, GlobalFrameAlloc.alloc, FrameAlloc.alloc, hf] at h
  | some i =>
    have ha : a = i * c.pageSize + c.memOffset := by
      simp [alloc_frame, GlobalFrameAlloc.alloc, FrameAlloc.alloc, hf] at h
      exact h.symm
    have hidx : (a - c.memOffset) / c.pageSize = i := by
      rw [ha, Nat.add_sub_cancel, Nat.mul_div_cancel _ hps]
    have hrestore :
        dealloc_frame c (alloc_frame c st).2 a = st := by
      simp only [dealloc_frame, GlobalFrameAlloc.dealloc, FrameAlloc.dealloc,
        alloc_frame, GlobalFrameAlloc.alloc, FrameAlloc.alloc, hf, hidx]
      have : (st.bits.set i true).set i false = st.bits := by
        rw [List.set_set]
        exact set_get_self (firstFree_some hf)
      cases st
      simpa using this
    rw [hrestore]
    simp [alloc_frame, GlobalFrameAlloc.alloc, FrameAlloc.alloc, hf, ha]

theorem alloc_dealloc_alloc_round_trip_witness :
    0 < (4096 : Nat) ∧
    (alloc_frame ⟨0, 4096⟩ ⟨[false]⟩).1 = some 0 ∧
    (alloc_frame ⟨0, 4096⟩
      (dealloc_frame ⟨0, 4096⟩ (alloc_frame ⟨0, 4096⟩ ⟨[false]⟩).2 0)).1 = some 0 :=
  ⟨by decide, by decide,
    alloc_dealloc_alloc_round_trip ⟨0, 4096⟩ ⟨[false]⟩ 0 (by decide) (by decide)⟩

theorem stepOp_preserves (c : Config) (hps : 0 < c.pageSize) {cap : Nat}
    {s : AllocState} {op : FrameOp} (hinv : Inv cap s)
    (hvalid : match op with
      | FrameOp.alloc => True
      | FrameOp.dealloc a => ∃ i ∈ s.held, a = i * c.pageSize + c.memOffset) :
    Inv cap (stepOp c s op) := by
  obtain ⟨hlen, hnd, hheld⟩ := hinv
  cases op with
  | alloc =>
    cases hf : firstFree s.fa.bits with
    | none =>
      simp only [stepOp, GlobalFrameAlloc.alloc, FrameAlloc.alloc, hf, Option.map_none']
      exact ⟨hlen, hnd, hheld⟩
    | some i =>
      have hfree := firstFree_some hf
      obtain ⟨hlt, -⟩ := List.get?_eq_some.mp hfree
      have hidx : (i * c.pageSize + c.memOffset - c.memOffset) / c.pageSize = i := by
        rw [Nat.add_sub_cancel, Nat.mul_div_cancel _ hps]
      have hnotmem : i ∉ s.held := by
        intro hmem
        have := hheld i hmem
        rw [hfree] at this
        simp at this
      simp only [stepOp, GlobalFrameAlloc.alloc, FrameAlloc.alloc, hf,
        Option.map_some', hidx]
      refine ⟨by simpa using hlen, List.nodup_cons.mpr ⟨hnotmem, hnd⟩, ?_⟩
      intro j hj
      rcases List.mem_cons.mp hj with rfl | hj
      · exact List.get?_set_eq_of_lt _ hlt
      · have hne : i ≠ j := fun h => hnotmem (h ▸ hj)
        rw [List.get?_set_ne _ _ hne]
        exact hheld j hj
  | dealloc a =>
    obtain ⟨i, himem, rfl⟩ := hvalid
    have hidx : (i * c.pageSize + c.memOffset - c.memOffset) / c.pageSize = i := by
      rw [Nat.add_sub_cancel, Nat.mul_div_cancel _ hps]
    simp only [stepOp, GlobalFrameAlloc.dealloc, FrameAlloc.dealloc, hidx]
    refine ⟨by simpa using hlen, hnd.erase i, ?_⟩
    intro j hj
    obtain ⟨hne, hjmem⟩ := (List.Nodup.mem_erase_iff hnd).mp hj
    rw [List.get?_set_ne _ _ (fun h => hne h.symm)]
    exact hheld j hjmem

theorem runOps_preserves (c : Config) (hps : 0 < c.pageSize) {cap : Nat}
    (ops : List FrameOp) : ∀ s : AllocState, Inv cap s → ValidOps c s ops →
    Inv cap (runOps c s ops) := by
  induction ops with
  | nil =>
    intro s hinv _
    simpa [runOps] using hinv
  | cons op ops ih =>
    intro s hinv hvalid
    simp only [ValidOps] at hvalid
    simp only [runOps, List.foldl] at ih ⊢
    exact ih (stepOp c s op) (stepOp_preserves c hps hinv hvalid.1) hvalid.2

theorem inv_consequences (c : Config) {cap : Nat} {s : AllocState}
    (hinv : Inv cap s) :
    s.held.Nodup ∧ s.held.length ≤ cap ∧
    (s.held.length = cap → (GlobalFrameAlloc.alloc c s.fa).1 = none) := by
  obtain ⟨hlen, hnd, hheld⟩ := hinv
  have hsub : s.held.toFinset ⊆ Finset.range cap := by
    intro j hj
    rw [List.mem_toFinset] at hj
    obtain ⟨hlt, -⟩ := List.get?_eq_some.mp (hheld j hj)
    rw [Finset.mem_range]
    omega
  have hcard : s.held.toFinset.card = s.held.length :=
    List.toFinset_card_of_nodup hnd
  refine ⟨hnd, ?_, ?_⟩
  · calc s.held.length = s.held.toFinset.card := hcard.symm
      _ ≤ (Finset.range cap).card := Finset.card_le_card hsub
      _ = cap := Finset.card_range cap
  · intro hfull
    cases hf : firstFree s.fa.bits with
    | none => simp [GlobalFrameAlloc.alloc, FrameAlloc.alloc, hf]
    | some j =>
      exfalso
      have hfree := firstFree_some hf
      obtain ⟨hlt, -⟩ := List.get?_eq_some.mp hfree
      have hjcap : j < cap := by omega
      have hjnot : j ∉ s.held := by
        intro hmem
        have := hheld j hmem
        rw [hfree] at this
        simp at this
      have hsub' : s.held.toFinset ⊆ (Finset.range cap).erase j := by
        intro x hx
        rw [Finset.mem_erase]
        refine ⟨?_, hsub hx⟩
        rintro rfl
        exact hjnot (List.mem_toFinset.mp hx)
      have hlecard := Finset.card_le_card hsub'
      rw [Finset.card_erase_of_mem (Finset.mem_range.mpr hjcap),
        Finset.card_range] at hlecard
      omega

/-- C4: for every finite sequence of alloc/dealloc operations with no
double-free, starting from the boot state of `cap` free frames, the
bitmap indices currently held are pairwise distinct, their count never
exceeds the bitmap capacity, and an alloc performed while all capacity
is held returns `None` rather than an index already held. -/
theorem frame_alloc_invariant (c : Config) (cap : Nat) (ops : List FrameOp)
    (hps : 0 < c.pageSize)
    (hvalid : ValidOps c (initState cap) ops) :
    (runOps c (initState cap) ops).held.Nodup ∧
    (runOps c (initState cap) ops).held.length ≤ cap ∧
    ((runOps c (initState cap) ops).held.length = cap →
      (GlobalFrameAlloc.alloc c (runOps c (initState cap) ops).fa).1 = none) := by
  have hinit : Inv cap (initState cap) := by
    refine ⟨by simp [initState], List.nodup_nil, ?_⟩
    intro i hi
    simp [initState] at hi
  exact inv_consequences c (runOps_preserves c hps ops (initState cap) hinit hvalid)

theorem frame_alloc_invariant_witness :
    0 < (4096 : Nat) ∧
    ValidOps ⟨0, 4096⟩ (initState 1) [FrameOp.alloc] ∧
    ((runOps ⟨0, 4096⟩ (initState 1) [FrameOp.alloc]).held.Nodup ∧
     (runOps ⟨0, 4096⟩ (initState 1) [FrameOp.alloc]).held.length ≤ 1 ∧
     ((runOps ⟨0, 4096⟩ (initState 1) [FrameOp.alloc]).held.length = 1 →
       (GlobalFrameAlloc.alloc ⟨0, 4096⟩
         (runOps ⟨0, 4096⟩ (initState 1) [FrameOp.alloc]).fa).1 = none)) :=
  ⟨by decide, ⟨trivial, trivial⟩,
    frame_alloc_invariant ⟨0, 4096⟩ 1 [FrameOp.alloc] (by decide) ⟨trivial, trivial⟩⟩

/-- The build targets distinguished by the `cfg(target_arch)` attributes
choosing the `FrameAlloc` type in `memory.rs`. -/
inductive Arch where
  | x86_64 : Arch
  | riscv : Arch
  | aarch64 : Arch
deriving Repr, DecidableEq

/-- Modelled from the spec: the capacity in frames of the `bit_allocator`
types selected in `memory.rs` (`BitAlloc64K` for x86_64, `BitAlloc4K` for
riscv32/riscv64, `BitAlloc1M` for aarch64); the crate's type names state
their capacity in frames. -/
def FrameAlloc.capacityOf : Arch → Nat
  | Arch.x86_64 => 64 * 1024
  | Arch.riscv => 4 * 1024
  | Arch.aarch64 => 1024 * 1024

/-- The capacities exactly as the specification text states them:
"up to 64K, 4M, or 1M frames depending on target". -/
def specStatedCapacity : Arch → Nat
  | Arch.x86_64 => 64 * 1024
  | Arch.riscv => 4 * 1024 * 1024
  | Arch.aarch64 => 1024 * 1024

/-- C3 counterexample: on the RISC-V target the selected bitmap type is
`BitAlloc4K` with capacity 4K frames, not the 4M frames the spec
states. -/
theorem capacity_spec_mismatch :
    FrameAlloc.capacityOf Arch.riscv ≠ specStatedCapacity Arch.riscv := by
  decide

/-- C3 (amended): the bitmap capacity is 64K frames on x86_64 and 1M
frames on aarch64 as the spec states, but 4K frames (not 4M) on
RISC-V. -/
theorem capacity_amended :
    FrameAlloc.capacityOf Arch.x86_64 = specStatedCapacity Arch.x86_64 ∧
    FrameAlloc.capacityOf Arch.aarch64 = specStatedCapacity Arch.aarch64 ∧
    FrameAlloc.capacityOf Arch.riscv = 4 * 1024 := by
  decide

/-- Modelled from the spec: a Memory Area is "a contiguous virtual range
[start, end)" with a fault-handling policy; `resolves` is the policy's
verdict on a faulting address inside the area (`true` = resolved, `false`
= access illegal under the policy). -/
structure MemoryArea where
  start : Nat
  stop : Nat
  resolves : Nat → Bool

def MemoryArea.contains (a : MemoryArea) (addr : Nat) : Bool :=
  decide (a.start ≤ addr) && decide (addr < a.stop)

/-- Modelled from the spec: an Address Space (Memory Set) is an ordered
collection of memory areas. -/
abbrev MemorySet := List MemoryArea

/-- Modelled from the spec: the Address Space fault handler performs a
containment search; the fault is settled by the policy of the area
containing the address, and is unresolvable (`false`) when the address
falls in no area. -/
def MemorySet.page_fault_handler (ms : MemorySet) (addr : Nat) : Bool :=
  match ms.find? (fun a => MemoryArea.contains a addr) with
  | some a => a.resolves addr
  | none => false

/-- Modelled from the spec: the "current process" handle, whose fields
include an owned Address Space (`memory_set`). -/
structure Process where
  memory_set : MemorySet

/-- From `memory.rs` (MMU build):
`pub fn page_fault_handler(addr: usize) -> bool { process().memory_set.page_fault_handler(addr) }`;
the current process is passed explicitly here. -/
def page_fault_handler (p : Process) (addr : Nat) : Bool :=
  MemorySet.page_fault_handler p.memory_set addr

/-- C6: the kernel-level page fault handler returns exactly the boolean
produced by the current process's Address Space fault handler; in
particular, when the faulting address lies in no area the result is
`false`. -/
theorem page_fault_handler_delegates (p : Process) (addr : Nat) :
    page_fault_handler p addr = MemorySet.page_fault_handler p.memory_set addr ∧
    ((∀ a ∈ p.memory_set, MemoryArea.contains a addr = false) →
      page_fault_handler p addr = false) := by
  refine ⟨rfl, ?_⟩
  intro h
  have hnone : p.memory_set.find? (fun a => MemoryArea.contains a addr) = none := by
    rw [List.find?_eq_none]
    intro a ha
    simp [h a ha]
  simp [page_fault_handler, MemorySet.page_fault_handler, hnone]

theorem page_fault_handler_delegates_witness :
    page_fault_handler ⟨[]⟩ 0 = MemorySet.page_fault_handler ([] : MemorySet) 0 ∧
    page_fault_handler ⟨[]⟩ 0 = false :=
  ⟨(page_fault_handler_delegates ⟨[]⟩ 0).1,
   (page_fault_handler_delegates ⟨[]⟩ 0).2
     (fun a ha => absurd ha (List.not_mem_nil a))⟩

/-- From `memory.rs` (no_mmu build):
`pub fn page_fault_handler(_addr: usize) -> bool { unreachable!() }`; the
panic is modelled as the error case of `Except`. -/
def page_fault_handler_no_mmu (_addr : Nat) : Except String Bool :=
  Except.error "internal error: entered unreachable code"

/-- C7: in the no-MMU build, for every argument, the page fault handler
never returns a boolean: it terminates immediately as a logic error
(panics). -/
theorem page_fault_handler_no_mmu_panics (addr : Nat) (b : Bool) :
    page_fault_handler_no_mmu addr ≠ Except.ok b := by
  simp [page_fault_handler_no_mmu]

/-- From `memory.rs`: `const STACK_SIZE: usize = 0x8000;`. -/
def STACK_SIZE : Nat := 0x8000

/-- The size-and-alignment request passed to the allocator
(`Layout::from_size_align`). -/
structure Layout where
  size : Nat
  align : Nat
deriving Repr, DecidableEq

/-- From `memory.rs`: `pub struct KernelStack(usize);` storing the
allocation base (called `bottom` in `new`). -/
structure KernelStack where
  bottom : Nat
deriving Repr, DecidableEq

/-- From `memory.rs`, `KernelStack::new`: requests
`alloc(Layout::from_size_align(STACK_SIZE, STACK_SIZE))` from the kernel
heap allocator (modelled as the function `heapAlloc`, with `0` playing
the null pointer) and stores the result without checking it. -/
def KernelStack.new (heapAlloc : Layout → Nat) : KernelStack :=
  ⟨heapAlloc ⟨STACK_SIZE, STACK_SIZE⟩⟩

/-- From `memory.rs`, `KernelStack::top`: `self.0 + STACK_SIZE`. -/
def KernelStack.top (s : KernelStack) : Nat :=
  s.bottom + STACK_SIZE

/-- From `memory.rs`, `impl Drop for KernelStack`: the destructor calls
`dealloc(self.0 as _, Layout::from_size_align(STACK_SIZE, STACK_SIZE))`;
modelled as the pair of arguments passed to the heap deallocation. -/
def KernelStack.dropCall (s : KernelStack) : Nat × Layout :=
  (s.bottom, ⟨STACK_SIZE, STACK_SIZE⟩)

/-- C8: for every KernelStack built by `new`, `top()` is the allocation
base plus the fixed stack size 0x8000; since the backing allocation is
requested with alignment equal to the stack size, `top()` is aligned to
the stack size and the usable range below `top()` is exactly the stack
size. -/
theorem kernel_stack_top (heapAlloc : Layout → Nat)
    (halign : STACK_SIZE ∣ heapAlloc ⟨STACK_SIZE, STACK_SIZE⟩) :
    STACK_SIZE = 0x8000 ∧
    (KernelStack.new heapAlloc).top
      = (KernelStack.new heapAlloc).bottom + STACK_SIZE ∧
    STACK_SIZE ∣ (KernelStack.new heapAlloc).top ∧
    (KernelStack.new heapAlloc).top
      - (KernelStack.new heapAlloc).bottom = STACK_SIZE := by
  refine ⟨rfl, rfl, ?_, by simp [KernelStack.top]⟩
  simp only [KernelStack.top, KernelStack.new]
  exact Nat.dvd_add halign dvd_rfl

theorem kernel_stack_top_witness :
    STACK_SIZE ∣ ((fun _ : Layout => 0x10000) ⟨STACK_SIZE, STACK_SIZE⟩ : Nat) ∧
    (STACK_SIZE = 0x8000 ∧
     (KernelStack.new (fun _ => 0x10000)).top
       = (KernelStack.new (fun _ => 0x10000)).bottom + STACK_SIZE ∧
     STACK_SIZE ∣ (KernelStack.new (fun _ => 0x10000)).top ∧
     (KernelStack.new (fun _ => 0x10000)).top
       - (KernelStack.new (fun _ => 0x10000)).bottom = STACK_SIZE) :=
  ⟨⟨2, rfl⟩, kernel_stack_top (fun _ => 0x10000) ⟨2, rfl⟩⟩

/-- C9: `new` requests exactly one heap allocation with size and
alignment both equal to the fixed stack size, and the destructor
deallocates exactly that allocation: the same base, with the same
size-and-alignment layout. -/
theorem kernel_stack_drop_matches (heapAlloc : Layout → Nat) :
    (KernelStack.new heapAlloc).bottom = heapAlloc ⟨STACK_SIZE, STACK_SIZE⟩ ∧
    (KernelStack.new heapAlloc).dropCall
      = (heapAlloc ⟨STACK_SIZE, STACK_SIZE⟩, ⟨STACK_SIZE, STACK_SIZE⟩) :=
  ⟨rfl, rfl⟩

/-- C10: `new` does not check the allocation result: with a heap
allocator that fails and yields the null pointer, `new` still returns a
KernelStack whose stored base is 0 and whose `top()` is the stack size,
signaling no error at the public interface. -/
theorem kernel_stack_null_unchecked :
    KernelStack.new (fun _ => 0) = ⟨0⟩ ∧
    (KernelStack.new (fun _ => 0)).top = STACK_SIZE ∧
    (KernelStack.new (fun _ => 0)).top = 0x8000 :=
  ⟨rfl, rfl, rfl⟩

end RCoreMemory
